import Mathlib

/-!
Verification of the minimax repository's search core.

The development shallowly embeds:
* the generic negamax/alpha-beta engine of `djinn-minimax/src/lib.rs`
  (`best_move`, `minimax`, `alpha_beta`) over an abstract value type,
* the older unpruned engine of `src/minimax.rs` (`best_move`, `minimax`),
  whose panics are modelled by `Option` (with `none` meaning a panic),
* the tic-tac-toe game of `src/games/tictactoe.rs`,
* models of the foreign-position adapter (`djinn-py/src/lib.rs`) and the
  plugin loader (`djinn/src/plugins/python.rs`).

Float values are modelled by `EFloat`: integers extended with the two
infinities.  This is the NaN-free fragment of IEEE floats; on it Rust's
`PartialOrd::partial_cmp` is total and `Float::max`/`Float::min` are the
lattice operations.
-/

/-- Values of the engine's numeric type: an integer, or one of the two
IEEE infinities (`Float::neg_infinity`, `Float::infinity`). -/
inductive EFloat where
  | negInf : EFloat
  | fin : Int → EFloat
  | posInf : EFloat
deriving DecidableEq, Repr

namespace EFloat

/-- The order on `EFloat`: `-∞` below everything, `+∞` above everything,
finite values ordered as integers. -/
def Le : EFloat → EFloat → Prop
  | .negInf, _ => True
  | .fin _, .negInf => False
  | .fin a, .fin b => a ≤ b
  | .fin _, .posInf => True
  | .posInf, .negInf => False
  | .posInf, .fin _ => False
  | .posInf, .posInf => True

instance : LE EFloat := ⟨Le⟩

instance decLe : ∀ a b : EFloat, Decidable (a ≤ b)
  | .negInf, .negInf => isTrue trivial
  | .negInf, .fin _ => isTrue trivial
  | .negInf, .posInf => isTrue trivial
  | .fin _, .negInf => isFalse (fun h => h)
  | .fin a, .fin b => (inferInstance : Decidable (a ≤ b))
  | .fin _, .posInf => isTrue trivial
  | .posInf, .negInf => isFalse (fun h => h)
  | .posInf, .fin _ => isFalse (fun h => h)
  | .posInf, .posInf => isTrue trivial

instance : Preorder EFloat where
  le_refl a := by
    cases a with
    | negInf => exact trivial
    | fin q => exact le_refl q
    | posInf => exact trivial
  le_trans a b c h h' := by
    cases a <;> cases b <;> cases c <;>
      first
      | exact trivial
      | exact False.elim h
      | exact False.elim h'
      | exact le_trans (α := ℤ) h h'

instance : PartialOrder EFloat where
  le_antisymm a b h h' := by
    cases a <;> cases b <;>
      first
      | rfl
      | exact False.elim h
      | exact False.elim h'
      | exact congrArg EFloat.fin (le_antisymm (α := ℤ) h h')

instance : LinearOrder EFloat where
  le_total a b := by
    cases a <;> cases b <;>
      first
      | exact Or.inl trivial
      | exact Or.inr trivial
      | exact le_total (α := ℤ) _ _
  decidableLE := decLe

/-- IEEE negation restricted to `EFloat` (`-x`; flips the infinities). -/
def neg : EFloat → EFloat
  | .negInf => .posInf
  | .fin q => .fin (-q)
  | .posInf => .negInf

/-- The sign of an extended value (used only to state IEEE multiplication). -/
def sign : EFloat → Int
  | .negInf => -1
  | .fin q => if q < 0 then -1 else if 0 < q then 1 else 0
  | .posInf => 1

/-- IEEE multiplication restricted to `EFloat`.  The engine only ever
multiplies by `1` and `-1`, where this agrees exactly with float
multiplication; the NaN-producing case `±∞ * 0` (unreachable from the
engine) is mapped to `0`. -/
def mul (x y : EFloat) : EFloat :=
  match x, y with
  | .fin a, .fin b => .fin (a * b)
  | x, y =>
    if x.sign * y.sign = 1 then .posInf
    else if x.sign * y.sign = -1 then .negInf
    else .fin 0

end EFloat

/-- The `Player` enum of both `minimax.rs` files: `Max` / `Min`. -/
inductive Player where
  | Max : Player
  | Min : Player
deriving DecidableEq, Repr

/-- Rust `Player::opposite`. -/
def Player.opposite : Player → Player
  | .Min => .Max
  | .Max => .Min

/-- The `State` trait of both `minimax.rs` files (djinn-minimax names the
static evaluator `evaluation`; `src/minimax.rs` names it
`heuristic_value`): terminality test, absolute static evaluation, player
to move, legal actions, successor position. -/
structure Game (S A V : Type) where
  is_terminal : S → Bool
  evaluation : S → V
  current_player : S → Player
  actions : S → List A
  result : S → A → S

/-- The operations of the `num_traits::Float` bound the engines use.
`pcmp` is `PartialOrd::partial_cmp` (which may return no ordering, e.g.
on NaN), `vmax`/`vmin` are `Float::max`/`Float::min`, `ge` is the `>=`
comparison, and `one`/`mul`/`neg` serve the leaf re-signing. -/
structure FloatOps (V : Type) where
  pcmp : V → V → Option Ordering
  neg : V → V
  vmax : V → V → V
  vmin : V → V → V
  neg_infinity : V
  infinity : V
  one : V
  mul : V → V → V
  ge : V → V → Bool

/-- The `FloatOps` instance at `EFloat`, the NaN-free float model: the
partial comparison is total. -/
def extOps : FloatOps EFloat where
  pcmp x y := some (compare x y)
  neg := EFloat.neg
  vmax := max
  vmin := min
  neg_infinity := .negInf
  infinity := .posInf
  one := .fin 1
  mul := EFloat.mul
  ge x y := decide (y ≤ x)

/-- The leaf value of `djinn-minimax`'s `alpha_beta`:
`state.evaluation() * if state.current_player() == Player::Max { V::one() } else { -V::one() }`. -/
def signEval {S A V : Type} (ops : FloatOps V) (g : Game S A V) (s : S) : V :=
  ops.mul (g.evaluation s)
    (if g.current_player s = Player.Max then ops.one else ops.neg ops.one)

/-- The `for action in state.actions()` loop body of `alpha_beta`
(`djinn-minimax/src/lib.rs`): compute
`value = -alpha_beta(result(action), -beta, -alpha, depth - 1)`, update
`best_value` and `alpha` by `max`, and break out of the loop when
`alpha >= beta`.  `child` is the recursive engine at the smaller depth. -/
def abFold {S A V : Type} (ops : FloatOps V) (child : S → V → V → V) (res : A → S)
    (beta : V) : List A → V → V → V
  | [], _, best_value => best_value
  | action :: rest, alpha, best_value =>
    let value := ops.neg (child (res action) (ops.neg beta) (ops.neg alpha))
    let best' := ops.vmax best_value value
    let alpha' := ops.vmax alpha value
    if ops.ge alpha' beta then best' else abFold ops child res beta rest alpha' best'

/-- Function `alpha_beta` of `djinn-minimax/src/lib.rs`: if the position is
terminal or the depth is `0` (the `depth == 0` test is the `Nat.rec`
base case), the re-signed evaluation; otherwise the pruning fold over
`actions()` starting from `best_value = -∞`, recursing at depth one
less.  Defined by `Nat.rec` on the depth so that it computes by
reduction. -/
def alphaBeta {S A V : Type} (ops : FloatOps V) (g : Game S A V) :
    Nat → S → V → V → V :=
  Nat.rec
    (motive := fun _ => S → V → V → V)
    (fun s _ _ => signEval ops g s)
    (fun _ child s alpha beta =>
      if g.is_terminal s then signEval ops g s
      else abFold ops child (g.result s) beta (g.actions s) alpha ops.neg_infinity)

/-- Function `minimax` of `djinn-minimax/src/lib.rs`:
`alpha_beta(state, V::neg_infinity(), V::infinity(), depth)`. -/
def minimax {S A V : Type} (ops : FloatOps V) (g : Game S A V) (d : Nat) (s : S) : V :=
  alphaBeta ops g d s ops.neg_infinity ops.infinity

/-- The comparator both `best_move`s derive from the current player:
`V::partial_cmp` for `Max`, the reversed comparison
`|a, b| V::partial_cmp(a, b).map(|o| o.reverse())` for `Min`. -/
def playerCmp {V : Type} (ops : FloatOps V) (p : Player) (x y : V) : Option Ordering :=
  match p with
  | .Max => ops.pcmp x y
  | .Min => (ops.pcmp x y).map Ordering.swap

/-- Rust's `Iterator::max_by` on a list: a fold by `cmp::max_by`, which
keeps the accumulator only when it compares strictly `Greater` (so equal
elements are resolved towards the later one); `none` on an empty
iterator. -/
def maxBy {A : Type} (cmp : A → A → Ordering) : List A → Option A
  | [] => none
  | a :: l => some (l.foldl (fun acc y => if cmp acc y = .gt then acc else y) a)

/-- Function `best_move` of `djinn-minimax/src/lib.rs`: maximise, by the
player-derived comparator applied to
`key(action) = minimax(&state.result(action), depth)` with incomparable
keys treated as equal (`unwrap_or(Ordering::Equal)`), over `actions()`.
The `.expect("No moves available")` panic is modelled by `none`. -/
def bestMove {S A V : Type} (ops : FloatOps V) (g : Game S A V) (d : Nat) (s : S) :
    Option A :=
  maxBy
    (fun x y =>
      (playerCmp ops (g.current_player s)
          (minimax ops g d (g.result s x)) (minimax ops g d (g.result s y))).getD .eq)
    (g.actions s)

/-- Mapping a panicking computation over a list: `none` as soon as any
element's computation panics (models how a Rust panic inside
`Iterator::map` aborts the whole evaluation). -/
def mapOpt {A B : Type} (f : A → Option B) : List A → Option (List B)
  | [] => some []
  | x :: l =>
    match f x, mapOpt f l with
    | some y, some ys => some (y :: ys)
    | _, _ => none

/-- Function `minimax` of the older `src/minimax.rs`: at a terminal position or
depth `0` it returns `heuristic_value()` unchanged (no re-signing);
otherwise it maps itself over the successors of `actions()` and reduces
with `Float::max` for `Max` / `Float::min` for `Min`.  The
`.expect("expected non-terminal state but no more moves were available")`
panic on an empty action list is modelled by `none`.  Defined by
`Nat.rec` on the depth so that it computes by reduction. -/
def minimaxSrc {S A V : Type} (ops : FloatOps V) (g : Game S A V) :
    Nat → S → Option V :=
  Nat.rec
    (motive := fun _ => S → Option V)
    (fun s => some (g.evaluation s))
    (fun _ child s =>
      if g.is_terminal s then some (g.evaluation s)
      else
        let reduce_result :=
          match g.current_player s with
          | .Max => ops.vmax
          | .Min => ops.vmin
        match mapOpt (fun a => child (g.result s a)) (g.actions s) with
        | none => none
        | some [] => none
        | some (v :: vs) => some (vs.foldl reduce_result v))

/-- The comparator closure of `best_move` in `src/minimax.rs`: evaluate
both keys by the unpruned engine (a panic in either key evaluation
aborts, hence the outer `none`) and compare by the player-derived
comparison with `unwrap_or(Ordering::Equal)`. -/
def srcCmp {S A V : Type} (ops : FloatOps V) (g : Game S A V) (d : Nat) (s : S)
    (x y : A) : Option Ordering :=
  match minimaxSrc ops g d (g.result s x), minimaxSrc ops g d (g.result s y) with
  | some kx, some ky => some ((playerCmp ops (g.current_player s) kx ky).getD .eq)
  | _, _ => none

/-- Rust `Iterator::max_by` over a panicking comparator, started from a first
element: `cmp::max_by` keeps the accumulator only on a strict `Greater`,
and a panicking comparison aborts the whole fold. -/
def maxByOpt {A : Type} (cmp : A → A → Option Ordering) : A → List A → Option A
  | a, [] => some a
  | a, y :: l =>
    match cmp a y with
    | none => none
    | some o => maxByOpt cmp (if o = .gt then a else y) l

/-- Function `best_move` of `src/minimax.rs`: like the djinn-minimax driver but
with keys computed by the unpruned `minimax`; `none` models both the
`.expect("No moves available")` panic on an empty action list and a
panic escaping a key evaluation. -/
def bestMoveSrc {S A V : Type} (ops : FloatOps V) (g : Game S A V) (d : Nat) (s : S) :
    Option A :=
  match g.actions s with
  | [] => none
  | a :: l => maxByOpt (srcCmp ops g d s) a l

/-- Modelled from the spec: the unpruned full-width minimax search in the
negamax formulation of §4.2 — same base case (the re-signed evaluation at
a terminal position or depth `0`) and, at an inner node, the maximum over
all successors of the negated recursive value, starting from `-∞`, with
no pruning.  This is the reference the pruning engine is compared
against; the repository itself only has the pruning loop. -/
def negamaxSpec {S A : Type} (g : Game S A EFloat) : Nat → S → EFloat :=
  Nat.rec
    (motive := fun _ => S → EFloat)
    (fun s => signEval extOps g s)
    (fun _ child s =>
      if g.is_terminal s then signEval extOps g s
      else
        (g.actions s).foldl (fun acc a => max acc (EFloat.neg (child (g.result s a))))
          EFloat.negInf)

/-- The `Tile` enum of `src/games/tictactoe.rs`. -/
inductive Tile where
  | Empty : Tile
  | Cross : Tile
  | Nought : Tile
deriving DecidableEq, Repr

/-- Rust `impl From<Player> for Tile`: `Max` marks crosses, `Min` noughts. -/
def tileFrom : Player → Tile
  | .Max => .Cross
  | .Min => .Nought

/-- The `Move` struct of `src/games/tictactoe.rs`: column `x`, row `y`,
and the tile being placed. -/
structure Move where
  x : Nat
  y : Nat
  tile : Tile
deriving DecidableEq, Repr

/-- Reading `board.0[y][x]` (row-major 3×3 grid; indices are always in
bounds for the moves the game produces, so the out-of-bounds default is
never consulted). -/
def tileAt (b : List (List Tile)) (y x : Nat) : Tile :=
  (b.getD y []).getD x .Empty

/-- Writing `board.0[y][x] = t`. -/
def setTile (b : List (List Tile)) (y x : Nat) (t : Tile) : List (List Tile) :=
  b.set y ((b.getD y []).set x t)

/-- Method `Board::check_win` of `src/games/tictactoe.rs`, for the freshly
placed move: the fixed column `x`, the fixed row `y`, and the two
diagonals when the move lies on them. -/
def check_win (b : List (List Tile)) (m : Move) : Bool :=
  let n := 3
  let row := (List.range n).all fun i => decide (tileAt b i m.x = m.tile)
  let column := (List.range n).all fun i => decide (tileAt b m.y i = m.tile)
  let main_diag := decide (m.x = m.y) && ((List.range n).all fun i => decide (tileAt b i i = m.tile))
  let anti_diag := decide (m.x + m.y = n - 1) &&
    ((List.range n).all fun i => decide (tileAt b i (n - 1 - i) = m.tile))
  row || column || main_diag || anti_diag

/-- The `TicTacToeState` struct of `src/games/tictactoe.rs`. -/
structure TicTacToeState where
  board : List (List Tile)
  player : Player
  winner : Option Player
  draw : Bool
  move_history : List Move
deriving DecidableEq, Repr

/-- Method `actions()` of the tic-tac-toe `State` impl: scan `x` in `0..3`
outer, `y` in `0..3` inner, and emit a move with the current player's
tile for every empty cell, in exactly that order. -/
def ttActions (s : TicTacToeState) : List Move :=
  let tile := tileFrom s.player
  ((List.range 3).map fun x =>
    (List.range 3).filterMap fun y =>
      if tileAt s.board y x = Tile.Empty then some ⟨x, y, tile⟩ else none).flatten

/-- Method `result()` of the tic-tac-toe `State` impl: place the tile, test for
a win from the placed move, test for a full board, flip the player,
record the winner (the mover) when the move wins, and append the move to
the history.  (The `assert_eq!` guarding against an occupied cell can
only fire on an illegal action, which `actions()` never produces.) -/
def ttResult (s : TicTacToeState) (m : Move) : TicTacToeState :=
  let board := setTile s.board m.y m.x m.tile
  let win := check_win board m
  let full := !(board.flatten.any fun t => decide (t = Tile.Empty))
  let draw := full && !win
  { board := board
    player := s.player.opposite
    winner := if win then some s.player else none
    draw := draw
    move_history := s.move_history ++ [m] }

/-- Method `heuristic_value()` of the tic-tac-toe `State` impl: `-∞` when `Min`
has won, `+∞` when `Max` has won, `0` otherwise. -/
def ttHeuristic (s : TicTacToeState) : EFloat :=
  match s.winner with
  | some .Min => .negInf
  | some .Max => .posInf
  | none => .fin 0

/-- The tic-tac-toe `State` impl bundled as a `Game`:
`is_terminal = winner.is_some() || draw`. -/
def ttGame : Game TicTacToeState Move EFloat where
  is_terminal s := s.winner.isSome || s.draw
  evaluation := ttHeuristic
  current_player s := s.player
  actions := ttActions
  result := ttResult

/-- The board of the `ensure_draw` test: empty except for a cross in the
`a1` corner, crosses to move (`TicTacToeState::with_board` defaults the
player to `Max`). -/
def cornerState : TicTacToeState where
  board := [[.Cross, .Empty, .Empty], [.Empty, .Empty, .Empty], [.Empty, .Empty, .Empty]]
  player := .Max
  winner := none
  draw := false
  move_history := []

/-- Consistency invariant of reachable tic-tac-toe states: the board is a
3×3 grid, and a state that is not terminal still has an empty cell.
(`result` maintains it: a full board without a fresh win is flagged as a
draw, hence terminal.) -/
def ttInv (s : TicTacToeState) : Prop :=
  s.board.length = 3 ∧ (∀ r ∈ s.board, r.length = 3) ∧
    (s.winner = none → s.draw = false →
      ∃ y ∈ List.range 3, ∃ x ∈ List.range 3, tileAt s.board y x = Tile.Empty)

instance (s : TicTacToeState) : Decidable (ttInv s) := by
  unfold ttInv; infer_instance

/-- Certificate checker for "the cross player forces a win within `d`
plies": at a terminal state the crosses must have won, at a `Max` node
some action works, at a `Min` node every action keeps losing.  Used only
as a small verified certificate for evaluating the search on concrete
positions. -/
def xWins : Nat → TicTacToeState → Bool :=
  Nat.rec
    (motive := fun _ => TicTacToeState → Bool)
    (fun s => s.winner == some Player.Max)
    (fun _ child s =>
      if ttGame.is_terminal s then s.winner == some Player.Max
      else
        match s.player with
        | .Max => (ttActions s).any fun a => child (ttResult s a)
        | .Min => (ttActions s).all fun a => child (ttResult s a))

/-- A two-action game used to exercise the drivers: state `0` is the
root with actions `1` and `2` leading to terminal states evaluating to
their own index. -/
def twoMoveGame : Game Nat Nat EFloat where
  is_terminal s := decide (s ≠ 0)
  evaluation s := .fin (Int.ofNat s)
  current_player _ := .Max
  actions s := if s = 0 then [1, 2] else []
  result _ a := a

/-- Like `twoMoveGame` but with the minimising player at the root. -/
def twoMoveGameMin : Game Nat Nat EFloat where
  is_terminal s := decide (s ≠ 0)
  evaluation s := .fin (Int.ofNat s)
  current_player s := if s = 0 then .Min else .Max
  actions s := if s = 0 then [1, 2] else []
  result _ a := a

/-- A game whose two root actions lead to equally valued terminal
states: exercises tie-breaking. -/
def tieGame : Game Nat Nat EFloat where
  is_terminal s := decide (s ≠ 0)
  evaluation _ := .fin 0
  current_player _ := .Max
  actions s := if s = 0 then [1, 2] else []
  result _ a := a

/-- A game violating the position contract: no state is terminal and no
state has actions. -/
def emptyGame : Game Nat Nat EFloat where
  is_terminal _ := false
  evaluation _ := .fin 0
  current_player _ := .Max
  actions _ := []
  result s _ := s

/-- A one-state terminal game with the minimiser to move and evaluation
`3`: exercises the leaf re-signing. -/
def minLeafGame : Game Nat Nat EFloat where
  is_terminal _ := true
  evaluation _ := .fin 3
  current_player _ := .Min
  actions _ := []
  result s _ := s

/-- A degenerate `FloatOps` whose partial comparison never returns an
ordering (every value behaves like a NaN). -/
def noneOps : FloatOps Unit where
  pcmp _ _ := none
  neg _ := ()
  vmax _ _ := ()
  vmin _ _ := ()
  neg_infinity := ()
  infinity := ()
  one := ()
  mul _ _ := ()
  ge _ _ := false

/-- Modelled from the spec: the foreign runtime behind the adapter.  Its
heap is the list of live objects (an object is just its serialized data;
a handle is an index), and `resultData` is the foreign `result` method's
own computation, producing the data of a fresh successor object. -/
structure PyRt where
  resultData : String → String → String

/-- Modelled from the spec: the foreign runtime's `result` call — it
*allocates* a new object holding the successor data and returns its
fresh handle; no existing object is touched. -/
def pyCallResult (rt : PyRt) (heap : List String) (h : Nat) (action : String) :
    Nat × List String :=
  (heap.length, heap ++ [rt.resultData (heap.getD h "") action])

/-- The `State(PyObject)` wrapper of `djinn-py/src/lib.rs`: it holds one
foreign object handle. -/
structure PyState where
  handle : Nat
deriving DecidableEq, Repr

/-- Method `State::result` of `djinn-py/src/lib.rs`: call the foreign object's
`result` method with the action and wrap the object it returns in a new
`State`; the original wrapper (and the object it points to) is left
alone. -/
def pyStateResult (rt : PyRt) (heap : List String) (s : PyState) (action : String) :
    PyState × List String :=
  let r := pyCallResult rt heap s.handle action
  (⟨r.1⟩, r.2)

/-- A word-capitalisation: first character upper-cased, rest
lower-cased.  Support for the Pascal-case model. -/
def capitalizeW : List Char → List Char
  | [] => []
  | c :: cs => c.toUpper :: cs.map Char.toLower

/-- Splitting a name into words at `_` and `-` separators.  Support for
the Pascal-case model. -/
def splitWords (cs : List Char) : List (List Char) :=
  match cs with
  | [] => [[]]
  | c :: rest =>
    let ws := splitWords rest
    if c = '_' ∨ c = '-' then [] :: ws
    else
      match ws with
      | [] => [[c]]
      | w :: ws' => (c :: w) :: ws'

/-- Modelled from the spec: the `convert_case` crate's conversion of a
file base name to Pascal case ("a canonical capitalized type-name form",
e.g. `hex` → `Hex`): split into words, capitalise each word, concatenate. -/
def toPascalCase (s : String) : String :=
  String.mk ((splitWords s.toList).map capitalizeW).flatten

/-- Modelled from the spec: an opaque foreign object produced by the
loader. -/
structure PyVal where
  id : Nat
deriving DecidableEq, Repr

/-- Modelled from the spec: a callable foreign attribute — applied to an
argument list, it either returns an object or fails. -/
structure PyCallable where
  call : List PyVal → Option PyVal

/-- Modelled from the spec: a loaded foreign module, exposing attributes
by name. -/
structure PyModuleM where
  attr : String → Option PyCallable

/-- Modelled from the spec: the environment `load_plugin` runs in —
`read_to_string` is the filesystem read (`none` = I/O error),
`from_code` is `PyModule::from_code_bound` on code, file name and module
name (`none` = compilation/load failure). -/
structure LoaderEnv where
  read_to_string : String → Option String
  from_code : String → String → String → Option PyModuleM

/-- The path components `load_plugin` consults: `file_name` and the base
name `file_stem` (a path with no stem panics earlier and is not
modelled). -/
structure PathParts where
  file_name : String
  stem : String

/-- The `Plugin(PyObject)` wrapper of `djinn/src/plugins/python.rs`. -/
structure Plugin where
  obj : PyVal
deriving DecidableEq, Repr

/-- Method `PythonPluginManager::load_plugin`: read the source, derive the
class name as the Pascal-cased file stem, load the module under the
stem's name, look up exactly the derived class name, instantiate it with
zero arguments (`call0`), and wrap the result.  Every failure aborts the
load (`none`). -/
def load_plugin (env : LoaderEnv) (path : PathParts) (full : String) : Option Plugin :=
  match env.read_to_string full with
  | none => none
  | some code =>
    let class_name := toPascalCase path.stem
    match env.from_code code path.file_name path.stem with
    | none => none
    | some m =>
      match m.attr class_name with
      | none => none
      | some c => (c.call []).map Plugin.mk

/-- A concrete loader environment for exercising `load_plugin`: one
readable file whose module exposes a single zero-argument-constructible
class `Hex`. -/
def hexEnv : LoaderEnv where
  read_to_string p := if p = "plugins/hex.py" then some "class Hex: pass" else none
  from_code _ _ name :=
    if name = "hex" then
      some ⟨fun attr => if attr = "Hex" then
        some ⟨fun args => if args = [] then some ⟨7⟩ else none⟩ else none⟩
    else none

/-- The path parts of `plugins/hex.py`. -/
def hexPath : PathParts where
  file_name := "hex.py"
  stem := "hex"

/-- Clamping a value into the window `[a, b]` — the invariant shape of
the alpha-beta correctness argument. -/
def clm (a b x : EFloat) : EFloat :=
  max a (min b x)

/-!  Theorems.  First the order algebra of `EFloat`. -/

theorem efloat_negInf_le (a : EFloat) : EFloat.negInf ≤ a := by
  cases a <;> exact trivial

theorem efloat_le_posInf (a : EFloat) : a ≤ EFloat.posInf := by
  cases a <;> exact trivial

theorem efloat_negInf_lt_posInf : (EFloat.negInf : EFloat) < EFloat.posInf :=
  ⟨trivial, fun h => h⟩

theorem efNeg_efNeg (a : EFloat) : a.neg.neg = a := by
  cases a <;> simp [EFloat.neg]

theorem fin_le_fin {a b : ℤ} : (EFloat.fin a ≤ EFloat.fin b) ↔ a ≤ b := Iff.rfl

theorem efNeg_le {a b : EFloat} : a.neg ≤ b.neg ↔ b ≤ a := by
  cases a <;> cases b <;>
    first
    | exact Iff.rfl
    | exact Iff.trans fin_le_fin (Iff.trans neg_le_neg_iff fin_le_fin.symm)

theorem efNeg_lt {a b : EFloat} : a.neg < b.neg ↔ b < a := by
  rw [lt_iff_le_not_le, lt_iff_le_not_le, efNeg_le, efNeg_le]

theorem efNeg_max (a b : EFloat) : (max a b).neg = min a.neg b.neg := by
  rcases le_total a b with h | h
  · rw [max_eq_right h, min_eq_right (efNeg_le.mpr h)]
  · rw [max_eq_left h, min_eq_left (efNeg_le.mpr h)]

theorem efNeg_min (a b : EFloat) : (min a b).neg = max a.neg b.neg := by
  rcases le_total a b with h | h
  · rw [min_eq_left h, max_eq_left (efNeg_le.mpr h)]
  · rw [min_eq_right h, max_eq_right (efNeg_le.mpr h)]

theorem efloat_max_negInf (a : EFloat) : max a EFloat.negInf = a :=
  max_eq_left (efloat_negInf_le a)

theorem efloat_negInf_max (a : EFloat) : max EFloat.negInf a = a :=
  max_eq_right (efloat_negInf_le a)

theorem efloat_min_posInf (a : EFloat) : min a EFloat.posInf = a :=
  min_eq_left (efloat_le_posInf a)

/-!  Unfolding equations for the `Nat.rec`-defined functions. -/

theorem alphaBeta_zero {S A V : Type} (ops : FloatOps V) (g : Game S A V)
    (s : S) (alpha beta : V) : alphaBeta ops g 0 s alpha beta = signEval ops g s := rfl

theorem alphaBeta_succ {S A V : Type} (ops : FloatOps V) (g : Game S A V)
    (d : Nat) (s : S) (alpha beta : V) :
    alphaBeta ops g (d + 1) s alpha beta =
      if g.is_terminal s then signEval ops g s
      else abFold ops (alphaBeta ops g d) (g.result s) beta (g.actions s) alpha
        ops.neg_infinity := rfl

theorem minimaxSrc_zero {S A V : Type} (ops : FloatOps V) (g : Game S A V) (s : S) :
    minimaxSrc ops g 0 s = some (g.evaluation s) := rfl

theorem minimaxSrc_succ {S A V : Type} (ops : FloatOps V) (g : Game S A V)
    (d : Nat) (s : S) :
    minimaxSrc ops g (d + 1) s =
      if g.is_terminal s then some (g.evaluation s)
      else
        match mapOpt (fun a => minimaxSrc ops g d (g.result s a)) (g.actions s) with
        | none => none
        | some [] => none
        | some (v :: vs) =>
          some (vs.foldl
            (match g.current_player s with
             | .Max => ops.vmax
             | .Min => ops.vmin) v) := rfl

theorem negamaxSpec_zero {S A : Type} (g : Game S A EFloat) (s : S) :
    negamaxSpec g 0 s = signEval extOps g s := rfl

theorem negamaxSpec_succ {S A : Type} (g : Game S A EFloat) (d : Nat) (s : S) :
    negamaxSpec g (d + 1) s =
      if g.is_terminal s then signEval extOps g s
      else
        (g.actions s).foldl
          (fun acc a => max acc (EFloat.neg (negamaxSpec g d (g.result s a))))
          EFloat.negInf := rfl

theorem xWins_zero (s : TicTacToeState) :
    xWins 0 s = (s.winner == some Player.Max) := rfl

theorem xWins_succ (d : Nat) (s : TicTacToeState) :
    xWins (d + 1) s =
      if ttGame.is_terminal s then s.winner == some Player.Max
      else
        match s.player with
        | .Max => (ttActions s).any fun a => xWins d (ttResult s a)
        | .Min => (ttActions s).all fun a => xWins d (ttResult s a) := rfl

/-!  Projection equations for `extOps` and `abFold`. -/

theorem extOps_vmax (a b : EFloat) : extOps.vmax a b = max a b := rfl

theorem extOps_vmin (a b : EFloat) : extOps.vmin a b = min a b := rfl

theorem extOps_neg (a : EFloat) : extOps.neg a = a.neg := rfl

theorem extOps_ge (a b : EFloat) : extOps.ge a b = decide (b ≤ a) := rfl

theorem extOps_negInf : extOps.neg_infinity = EFloat.negInf := rfl

theorem extOps_posInf : extOps.infinity = EFloat.posInf := rfl

theorem extOps_pcmp (a b : EFloat) : extOps.pcmp a b = some (compare a b) := rfl

theorem abFold_nil {S A V : Type} (ops : FloatOps V) (child : S → V → V → V)
    (res : A → S) (beta alpha best : V) :
    abFold ops child res beta [] alpha best = best := rfl

theorem abFold_cons {S A V : Type} (ops : FloatOps V) (child : S → V → V → V)
    (res : A → S) (beta alpha best : V) (a : A) (l : List A) :
    abFold ops child res beta (a :: l) alpha best =
      (let value := ops.neg (child (res a) (ops.neg beta) (ops.neg alpha))
       let best' := ops.vmax best value
       let alpha' := ops.vmax alpha value
       if ops.ge alpha' beta then best' else abFold ops child res beta l alpha' best') := rfl

/-!  Clamp algebra. -/

theorem clm_min_max {a b : EFloat} (h : a ≤ b) (x : EFloat) :
    clm a b x = min b (max a x) := by
  rw [clm, max_min_distrib_left, max_eq_right h]

theorem clm_negInf_posInf (x : EFloat) : clm .negInf .posInf x = x := by
  rw [clm, min_eq_right (efloat_le_posInf x), max_eq_right (efloat_negInf_le x)]

theorem clm_eq_right {a b x : EFloat} (hab : a ≤ b) (h : b ≤ x) : clm a b x = b := by
  rw [clm, min_eq_left h, max_eq_right hab]

theorem clm_eq_left {a b x : EFloat} (hab : a ≤ b) (h : x ≤ a) : clm a b x = a := by
  rw [clm, min_eq_right (le_trans h hab), max_eq_left h]

theorem clm_eq_self {a b x : EFloat} (h1 : a ≤ x) (h2 : x ≤ b) : clm a b x = x := by
  rw [clm, min_eq_right h2, max_eq_right h1]

theorem le_of_clm_eq_right {a b x : EFloat} (hab : a < b) (h : clm a b x = b) : b ≤ x := by
  rcases le_or_lt b x with hx | hx
  · exact hx
  · rcases le_total x a with hxa | hax
    · rw [clm_eq_left hab.le hxa] at h
      exact absurd h hab.ne
    · rw [clm_eq_self hax hx.le] at h
      exact absurd h.symm hx.ne'

theorem le_of_clm_eq_left {a b x : EFloat} (hab : a < b) (h : clm a b x = a) : x ≤ a := by
  rcases le_total x a with hxa | hax
  · exact hxa
  · rcases le_or_lt b x with hbx | hxb
    · rw [clm_eq_right hab.le hbx] at h
      exact absurd h.symm hab.ne
    · rw [clm_eq_self hax hxb.le] at h
      exact h.le

theorem eq_of_clm_eq_mid {a b x y : EFloat} (h1 : a < x) (h2 : x < b)
    (h : clm a b y = x) : y = x := by
  rcases le_total y a with hya | hay
  · rw [clm_eq_left (h1.trans h2).le hya] at h
    exact absurd h h1.ne
  · rcases le_or_lt b y with hby | hyb
    · rw [clm_eq_right (h1.trans h2).le hby] at h
      exact absurd h h2.ne.symm
    · rwa [clm_eq_self hay hyb.le] at h

theorem clm_neg {a b : EFloat} (h : a ≤ b) (x : EFloat) :
    (clm b.neg a.neg x).neg = clm a b x.neg := by
  rw [clm, efNeg_max, efNeg_min, efNeg_efNeg, efNeg_efNeg, clm_min_max h]

/-!  Fold lemmas for the unpruned value. -/

theorem foldl_maxf_ge {A : Type} (f : A → EFloat) :
    ∀ (l : List A) (b : EFloat), b ≤ l.foldl (fun acc a => max acc (f a)) b
  | [], _ => le_refl _
  | a :: l, b => le_trans (le_max_left b (f a)) (foldl_maxf_ge f l (max b (f a)))

theorem foldl_maxf_factor {A : Type} (f : A → EFloat) :
    ∀ (l : List A) (b : EFloat),
      l.foldl (fun acc a => max acc (f a)) b =
        max b (l.foldl (fun acc a => max acc (f a)) EFloat.negInf)
  | [], b => (efloat_max_negInf b).symm
  | a :: l, b => by
    show (l.foldl _ (max b (f a))) = max b (l.foldl _ (max EFloat.negInf (f a)))
    rw [foldl_maxf_factor f l (max b (f a)), foldl_maxf_factor f l (max EFloat.negInf (f a)),
      efloat_negInf_max, max_assoc]

theorem clm_foldl_congr {A : Type} (f : A → EFloat) {a b b1 b2 : EFloat}
    (hab : a ≤ b) (h : max a b1 = max a b2) (l : List A) :
    clm a b (l.foldl (fun acc x => max acc (f x)) b1) =
      clm a b (l.foldl (fun acc x => max acc (f x)) b2) := by
  rw [clm_min_max hab, clm_min_max hab, foldl_maxf_factor f l b1, foldl_maxf_factor f l b2,
    ← max_assoc, ← max_assoc, h]

theorem clm_lift {a b v x y : EFloat} (hav : a ≤ v) (hx : v ≤ x) (hy : v ≤ y)
    (h : clm v b x = clm v b y) (hvb : v ≤ b) : clm a b x = clm a b y := by
  rw [clm_min_max hvb, clm_min_max hvb, max_eq_right hx, max_eq_right hy] at h
  rw [clm_min_max (le_trans hav hvb), clm_min_max (le_trans hav hvb),
    max_eq_right (le_trans hav hx), max_eq_right (le_trans hav hy), h]

theorem abFold_cons_ext {S A : Type} (child : S → EFloat → EFloat → EFloat) (res : A → S)
    (beta alpha best : EFloat) (a : A) (l : List A) :
    abFold extOps child res beta (a :: l) alpha best =
      if beta ≤ max alpha (child (res a) beta.neg alpha.neg).neg
      then max best (child (res a) beta.neg alpha.neg).neg
      else
        abFold extOps child res beta l (max alpha (child (res a) beta.neg alpha.neg).neg)
          (max best (child (res a) beta.neg alpha.neg).neg) := by
  rw [abFold_cons]
  simp only [extOps_ge, extOps_vmax, extOps_neg, decide_eq_true_eq]

theorem abFold_ge {S A : Type} (child : S → EFloat → EFloat → EFloat) (res : A → S)
    (beta : EFloat) (l : List A) :
    ∀ (alpha best : EFloat), best ≤ abFold extOps child res beta l alpha best := by
  induction l with
  | nil => intro alpha best; exact le_refl _
  | cons a l ih =>
    intro alpha best
    rw [abFold_cons_ext]
    by_cases hc : beta ≤ max alpha (child (res a) beta.neg alpha.neg).neg
    · rw [if_pos hc]
      exact le_max_left _ _
    · rw [if_neg hc]
      exact le_trans (le_max_left best _) (ih _ _)

theorem abFold_clm {S A : Type} (g : Game S A EFloat) (d : Nat) (beta : EFloat)
    (res : A → S) (nv : A → EFloat)
    (H : ∀ (a : A) (alpha : EFloat), alpha < beta →
      clm alpha beta (alphaBeta extOps g d (res a) beta.neg alpha.neg).neg =
        clm alpha beta (nv a))
    (l : List A) :
    ∀ (alpha best : EFloat), alpha < beta →
      clm alpha beta (abFold extOps (alphaBeta extOps g d) res beta l alpha best) =
        clm alpha beta (l.foldl (fun acc x => max acc (nv x)) best) := by
  induction l with
  | nil => intro alpha best hab; rfl
  | cons a l ih =>
    intro alpha best hab
    rw [abFold_cons_ext]
    set v := (alphaBeta extOps g d (res a) beta.neg alpha.neg).neg with hvdef
    have hv : clm alpha beta v = clm alpha beta (nv a) := H a alpha hab
    have hR : (a :: l).foldl (fun acc x => max acc (nv x)) best
        = l.foldl (fun acc x => max acc (nv x)) (max best (nv a)) := rfl
    rw [hR]
    by_cases hc : beta ≤ max alpha v
    · rw [if_pos hc]
      have hbv : beta ≤ v := by
        rcases le_total v alpha with h1 | h1
        · rw [max_eq_left h1] at hc
          exact absurd hc (not_le.mpr hab)
        · rwa [max_eq_right h1] at hc
      have hnv : beta ≤ nv a := by
        apply le_of_clm_eq_right hab
        rw [← hv]
        exact clm_eq_right hab.le hbv
      rw [clm_eq_right hab.le (le_trans hbv (le_max_right best v)),
        clm_eq_right hab.le
          (le_trans hnv (le_trans (le_max_right best (nv a)) (foldl_maxf_ge nv l _)))]
    · rw [if_neg hc]
      have hvb : v < beta := lt_of_le_of_lt (le_max_right alpha v) (not_le.mp hc)
      rcases le_or_lt v alpha with hva | hav
      · rw [max_eq_left hva]
        have hnva : nv a ≤ alpha := by
          apply le_of_clm_eq_left hab
          rw [← hv]
          exact clm_eq_left hab.le hva
        rw [ih alpha (max best v) hab]
        apply clm_foldl_congr nv hab.le
        have h1 : max alpha (max best v) = max best alpha := by
          rw [max_left_comm, max_eq_left hva]
        have h2 : max alpha (max best (nv a)) = max best alpha := by
          rw [max_left_comm, max_eq_left hnva]
        rw [h1, h2]
      · have hnva : nv a = v := by
          apply eq_of_clm_eq_mid hav hvb
          rw [← hv]
          exact clm_eq_self hav.le hvb.le
        rw [hnva, max_eq_right hav.le]
        exact clm_lift hav.le
          (le_trans (le_max_right best v) (abFold_ge (alphaBeta extOps g d) res beta l v (max best v)))
          (le_trans (le_max_right best v) (foldl_maxf_ge nv l (max best v)))
          (ih v (max best v) hvb)
          hvb.le

theorem alphaBeta_clm {S A : Type} (g : Game S A EFloat) :
    ∀ (d : Nat) (s : S) (alpha beta : EFloat), alpha < beta →
      clm alpha beta (alphaBeta extOps g d s alpha beta) =
        clm alpha beta (negamaxSpec g d s) := by
  intro d
  induction d with
  | zero => intro s alpha beta hab; rfl
  | succ d ih =>
    intro s alpha beta hab
    rw [alphaBeta_succ, negamaxSpec_succ]
    by_cases ht : g.is_terminal s
    · rw [if_pos ht, if_pos ht]
    · rw [if_neg ht, if_neg ht]
      have H : ∀ (a : A) (alpha' : EFloat), alpha' < beta →
          clm alpha' beta (alphaBeta extOps g d (g.result s a) beta.neg alpha'.neg).neg =
            clm alpha' beta (EFloat.neg (negamaxSpec g d (g.result s a))) := by
        intro a alpha' h'
        have h4 := congrArg EFloat.neg (ih (g.result s a) beta.neg alpha'.neg (efNeg_lt.mpr h'))
        rwa [clm_neg h'.le, clm_neg h'.le] at h4
      exact abFold_clm g d beta (g.result s)
        (fun a => EFloat.neg (negamaxSpec g d (g.result s a))) H (g.actions s) alpha
        extOps.neg_infinity hab

/-!  Lemmas about the `max_by` fold of the drivers. -/

theorem foldl_maxBy_mem {A : Type} (cmp : A → A → Ordering) (l : List A) :
    ∀ a : A, l.foldl (fun acc y => if cmp acc y = .gt then acc else y) a = a ∨
      l.foldl (fun acc y => if cmp acc y = .gt then acc else y) a ∈ l := by
  induction l with
  | nil => intro a; exact Or.inl rfl
  | cons y l ih =>
    intro a
    rw [List.foldl_cons]
    rcases ih (if cmp a y = .gt then a else y) with h | h
    · rw [h]
      by_cases hcy : cmp a y = .gt
      · rw [if_pos hcy]
        exact Or.inl rfl
      · rw [if_neg hcy]
        exact Or.inr (List.mem_cons_self y l)
    · exact Or.inr (List.mem_cons_of_mem y h)

theorem foldl_maxBy_rel {A : Type} (cmp : A → A → Ordering) (R : A → A → Prop)
    (hgt : ∀ x y, cmp x y = .gt → R x y)
    (hngt : ∀ x y, ¬cmp x y = .gt → R y x)
    (htrans : ∀ x y z, R x y → R y z → R x z) (l : List A) :
    ∀ a b : A, b = a ∨ b ∈ l →
      R (l.foldl (fun acc y => if cmp acc y = .gt then acc else y) a) b := by
  have hrefl : ∀ x, R x x := by
    intro x
    by_cases h2 : cmp x x = .gt
    · exact hgt _ _ h2
    · exact hngt _ _ h2
  induction l with
  | nil =>
    intro a b hb
    rcases hb with rfl | h
    · exact hrefl b
    · cases h
  | cons y l ih =>
    intro a b hb
    rw [List.foldl_cons]
    have hstep : ∀ c, c = a ∨ c = y → R (if cmp a y = .gt then a else y) c := by
      intro c hc
      by_cases hcy : cmp a y = .gt
      · rw [if_pos hcy]
        rcases hc with rfl | rfl
        · exact hrefl c
        · exact hgt _ _ hcy
      · rw [if_neg hcy]
        rcases hc with rfl | rfl
        · exact hngt _ _ hcy
        · exact hrefl c
    rcases hb with rfl | hmem
    · exact htrans _ _ _ (ih _ _ (Or.inl rfl)) (hstep b (Or.inl rfl))
    · rcases List.mem_cons.mp hmem with rfl | hl
      · exact htrans _ _ _ (ih _ _ (Or.inl rfl)) (hstep b (Or.inr rfl))
      · exact ih _ _ (Or.inr hl)

theorem foldl_maxBy_last {A : Type} (cmp : A → A → Ordering) (l : List A) :
    ∀ a : A, ∃ l1 l2,
      a :: l = l1 ++ (l.foldl (fun acc y => if cmp acc y = .gt then acc else y) a) :: l2 ∧
        ∀ b ∈ l2, cmp (l.foldl (fun acc y => if cmp acc y = .gt then acc else y) a) b = .gt := by
  induction l with
  | nil =>
    intro a
    exact ⟨[], [], rfl, by intro b hb; cases hb⟩
  | cons y l ih =>
    intro a
    rw [List.foldl_cons]
    obtain ⟨l1, l2, heq, hlast⟩ := ih (if cmp a y = .gt then a else y)
    by_cases hcy : cmp a y = .gt
    · rw [if_pos hcy] at heq hlast ⊢
      cases l1 with
      | nil =>
        rw [List.nil_append] at heq
        injection heq with h1 h2
        refine ⟨[], y :: l2, ?_, ?_⟩
        · rw [List.nil_append, ← h1, h2]
        · intro b hb
          rcases List.mem_cons.mp hb with rfl | hb2
          · rw [← h1]
            exact hcy
          · exact hlast b hb2
      | cons c l1' =>
        rw [List.cons_append] at heq
        injection heq with h1 h2
        refine ⟨a :: y :: l1', l2, ?_, hlast⟩
        rw [List.cons_append, List.cons_append, ← h2]
    · rw [if_neg hcy] at heq hlast ⊢
      refine ⟨a :: l1, l2, ?_, hlast⟩
      rw [List.cons_append, ← heq]

/-!  Lemmas about `mapOpt` and min/max folds. -/

theorem mapOpt_eq_some_of {A B : Type} (f : A → Option B) (l : List A)
    (h : ∀ a ∈ l, (f a).isSome) :
    ∃ ys, mapOpt f l = some ys ∧ ys.length = l.length := by
  induction l with
  | nil => exact ⟨[], rfl, rfl⟩
  | cons a l ih =>
    obtain ⟨ys, hys, hlen⟩ := ih fun x hx => h x (List.mem_cons_of_mem a hx)
    obtain ⟨y, hy⟩ := Option.isSome_iff_exists.mp (h a (List.mem_cons_self a l))
    refine ⟨y :: ys, ?_, by simp [hlen]⟩
    simp [mapOpt, hy, hys]

theorem mapOpt_mem {A B : Type} (f : A → Option B) (l : List A) :
    ∀ ys, mapOpt f l = some ys → ∀ a ∈ l, ∀ v, f a = some v → v ∈ ys := by
  induction l with
  | nil =>
    intro ys _ a ha
    cases ha
  | cons x l ih =>
    intro ys hys a ha v hv
    rcases hfx : f x with _ | y <;> rcases hml : mapOpt f l with _ | zs <;>
      rw [mapOpt, hfx, hml] at hys <;> cases hys
    rcases List.mem_cons.mp ha with rfl | hl
    · rw [hfx] at hv
      injection hv with hv
      exact hv ▸ List.mem_cons_self y zs
    · exact List.mem_cons_of_mem y (ih zs hml a hl v hv)

theorem mapOpt_mem_rev {A B : Type} (f : A → Option B) (l : List A) :
    ∀ ys, mapOpt f l = some ys → ∀ v ∈ ys, ∃ a ∈ l, f a = some v := by
  induction l with
  | nil =>
    intro ys hys v hv
    cases hys
    cases hv
  | cons x l ih =>
    intro ys hys v hv
    rcases hfx : f x with _ | y <;> rcases hml : mapOpt f l with _ | zs <;>
      rw [mapOpt, hfx, hml] at hys <;> cases hys
    rcases List.mem_cons.mp hv with rfl | hz
    · exact ⟨x, List.mem_cons_self x l, hfx⟩
    · obtain ⟨a, ha, hfa⟩ := ih zs hml v hz
      exact ⟨a, List.mem_cons_of_mem x ha, hfa⟩

theorem foldl_max_top (vs : List EFloat) :
    ∀ v, EFloat.posInf ∈ v :: vs → vs.foldl max v = .posInf := by
  induction vs with
  | nil =>
    intro v hv
    rcases List.mem_cons.mp hv with rfl | h
    · rfl
    · cases h
  | cons x vs ih =>
    intro v hv
    rw [List.foldl_cons]
    rcases List.mem_cons.mp hv with rfl | h
    · exact ih (max .posInf x)
        (by rw [max_eq_left (efloat_le_posInf x)]; exact List.mem_cons_self _ _)
    · rcases List.mem_cons.mp h with rfl | h2
      · exact ih (max v .posInf)
          (by rw [max_eq_right (efloat_le_posInf v)]; exact List.mem_cons_self _ _)
      · exact ih (max v x) (List.mem_cons_of_mem _ h2)

theorem foldl_min_all (vs : List EFloat) :
    ∀ v, (∀ x ∈ vs, x = v) → vs.foldl min v = v := by
  induction vs with
  | nil => intro v _; rfl
  | cons x vs ih =>
    intro v hall
    rw [List.foldl_cons, hall x (List.mem_cons_self x vs), min_self]
    exact ih v fun y hy => hall y (List.mem_cons_of_mem x hy)

/-!  Tic-tac-toe: the reachability invariant and search totality. -/

theorem ttGame_actions (s : TicTacToeState) : ttGame.actions s = ttActions s := rfl

theorem ttGame_result (s : TicTacToeState) (m : Move) : ttGame.result s m = ttResult s m := rfl

theorem ttGame_evaluation (s : TicTacToeState) : ttGame.evaluation s = ttHeuristic s := rfl

theorem ttGame_player (s : TicTacToeState) : ttGame.current_player s = s.player := rfl

theorem ttGame_terminal (s : TicTacToeState) :
    ttGame.is_terminal s = (s.winner.isSome || s.draw) := rfl

theorem ttResult_board (s : TicTacToeState) (m : Move) :
    (ttResult s m).board = setTile s.board m.y m.x m.tile := rfl

theorem ttResult_winner (s : TicTacToeState) (m : Move) :
    (ttResult s m).winner =
      if check_win (setTile s.board m.y m.x m.tile) m then some s.player else none := rfl

theorem ttResult_draw (s : TicTacToeState) (m : Move) :
    (ttResult s m).draw =
      ((!((setTile s.board m.y m.x m.tile).flatten.any fun t => decide (t = Tile.Empty))) &&
        !check_win (setTile s.board m.y m.x m.tile) m) := rfl

theorem setTile_shape {b : List (List Tile)} (y x : Nat) (t : Tile)
    (h3 : b.length = 3) (hr : ∀ r ∈ b, r.length = 3) :
    (setTile b y x t).length = 3 ∧ ∀ r ∈ setTile b y x t, r.length = 3 := by
  constructor
  · rw [setTile, List.length_set, h3]
  · intro r hrm
    by_cases hy : y < b.length
    · rcases List.mem_or_eq_of_mem_set hrm with hin | rfl
      · exact hr r hin
      · rw [List.length_set, List.getD_eq_getElem _ _ hy]
        exact hr _ (List.getElem_mem hy)
    · rw [setTile, List.set_eq_of_length_le (le_of_not_lt hy)] at hrm
      exact hr r hrm

theorem tile_mem (t : Tile) : t ∈ ([.Empty, .Cross, .Nought] : List Tile) := by
  cases t <;> decide

theorem row_empty_cell :
    ∀ r0 ∈ ([.Empty, .Cross, .Nought] : List Tile),
    ∀ r1 ∈ ([.Empty, .Cross, .Nought] : List Tile),
    ∀ r2 ∈ ([.Empty, .Cross, .Nought] : List Tile),
      (([r0, r1, r2] : List Tile).any fun t => decide (t = Tile.Empty)) = true →
      ∃ x ∈ List.range 3, ([r0, r1, r2] : List Tile).getD x Tile.Empty = Tile.Empty := by
  decide

theorem shape_empty_cell {b : List (List Tile)} (h3 : b.length = 3)
    (hr : ∀ r ∈ b, r.length = 3)
    (hfull : (b.flatten.any fun t => decide (t = Tile.Empty)) = true) :
    ∃ y ∈ List.range 3, ∃ x ∈ List.range 3, tileAt b y x = Tile.Empty := by
  rcases b with _ | ⟨r0, b⟩
  · cases h3
  rcases b with _ | ⟨r1, b⟩
  · cases h3
  rcases b with _ | ⟨r2, b⟩
  · cases h3
  rcases b with _ | ⟨r3, b⟩
  case cons.cons.cons.cons => cases h3
  have h0 : r0.length = 3 := hr r0 (by simp)
  have h1 : r1.length = 3 := hr r1 (by simp)
  have h2 : r2.length = 3 := hr r2 (by simp)
  rcases r0 with _ | ⟨a0, r0⟩; · cases h0
  rcases r0 with _ | ⟨a1, r0⟩; · cases h0
  rcases r0 with _ | ⟨a2, r0⟩; · cases h0
  rcases r0 with _ | ⟨a3, r0⟩
  case cons.cons.cons.cons => cases h0
  rcases r1 with _ | ⟨b0, r1⟩; · cases h1
  rcases r1 with _ | ⟨b1, r1⟩; · cases h1
  rcases r1 with _ | ⟨b2, r1⟩; · cases h1
  rcases r1 with _ | ⟨b3, r1⟩
  case cons.cons.cons.cons => cases h1
  rcases r2 with _ | ⟨c0, r2⟩; · cases h2
  rcases r2 with _ | ⟨c1, r2⟩; · cases h2
  rcases r2 with _ | ⟨c2, r2⟩; · cases h2
  rcases r2 with _ | ⟨c3, r2⟩
  case cons.cons.cons.cons => cases h2
  have hsplit :
      ([[a0, a1, a2], [b0, b1, b2], [c0, c1, c2]] : List (List Tile)).flatten
        = [a0, a1, a2] ++ ([b0, b1, b2] ++ ([c0, c1, c2] ++ [])) := rfl
  rw [hsplit, List.any_append, List.any_append, List.any_append] at hfull
  rcases Bool.or_eq_true_iff.mp hfull with hrow | hrest
  · obtain ⟨x, hx, hcell⟩ :=
      row_empty_cell _ (tile_mem a0) _ (tile_mem a1) _ (tile_mem a2) hrow
    exact ⟨0, by decide, x, hx, hcell⟩
  · rcases Bool.or_eq_true_iff.mp hrest with hrow | hrest2
    · obtain ⟨x, hx, hcell⟩ :=
        row_empty_cell _ (tile_mem b0) _ (tile_mem b1) _ (tile_mem b2) hrow
      exact ⟨1, by decide, x, hx, hcell⟩
    · rcases Bool.or_eq_true_iff.mp hrest2 with hrow | hfalse
      · obtain ⟨x, hx, hcell⟩ :=
          row_empty_cell _ (tile_mem c0) _ (tile_mem c1) _ (tile_mem c2) hrow
        exact ⟨2, by decide, x, hx, hcell⟩
      · cases hfalse

theorem ttInv_result {s : TicTacToeState} (m : Move) (h : ttInv s) :
    ttInv (ttResult s m) := by
  obtain ⟨h3, hr, _⟩ := h
  obtain ⟨h3', hr'⟩ := setTile_shape m.y m.x m.tile h3 hr
  refine ⟨h3', hr', ?_⟩
  intro hw hd
  rw [ttResult_winner] at hw
  rw [ttResult_draw] at hd
  have hwin : check_win (setTile s.board m.y m.x m.tile) m = false := by
    by_cases hc : check_win (setTile s.board m.y m.x m.tile) m = true
    · rw [if_pos hc] at hw
      cases hw
    · exact Bool.not_eq_true _ ▸ hc
  rw [hwin] at hd
  simp only [Bool.not_false, Bool.and_true] at hd
  cases hany : (setTile s.board m.y m.x m.tile).flatten.any fun t => decide (t = Tile.Empty) with
  | true => exact shape_empty_cell h3' hr' hany
  | false =>
    rw [hany] at hd
    cases hd

theorem ttActions_ne_nil {s : TicTacToeState} (y x : Nat) (hy : y ∈ List.range 3)
    (hx : x ∈ List.range 3) (he : tileAt s.board y x = Tile.Empty) :
    ttActions s ≠ [] := by
  apply List.ne_nil_of_mem (a := Move.mk x y (tileFrom s.player))
  rw [ttActions]
  apply List.mem_flatten.mpr
  refine ⟨(List.range 3).filterMap fun y' =>
    if tileAt s.board y' x = Tile.Empty then some ⟨x, y', tileFrom s.player⟩ else none, ?_, ?_⟩
  · exact List.mem_map.mpr ⟨x, hx, rfl⟩
  · exact List.mem_filterMap.mpr ⟨y, hy, by rw [if_pos he]⟩

theorem ttNonterminal {s : TicTacToeState} (ht : ¬ttGame.is_terminal s = true) :
    s.winner = none ∧ s.draw = false := by
  rw [ttGame_terminal, Bool.or_eq_true, not_or] at ht
  exact ⟨Option.not_isSome_iff_eq_none.mp ht.1, Bool.not_eq_true _ ▸ ht.2⟩

theorem ttTotal : ∀ (d : Nat) (s : TicTacToeState), ttInv s →
    (minimaxSrc extOps ttGame d s).isSome := by
  intro d
  induction d with
  | zero => intro s _; rfl
  | succ d ih =>
    intro s h
    rw [minimaxSrc_succ]
    by_cases ht : ttGame.is_terminal s
    · rw [if_pos ht]
      rfl
    · rw [if_neg ht]
      obtain ⟨hw, hd⟩ := ttNonterminal ht
      obtain ⟨y, hy, x, hx, he⟩ := h.2.2 hw hd
      have hne := ttActions_ne_nil y x hy hx he
      obtain ⟨ys, hys, hlen⟩ := mapOpt_eq_some_of
        (fun a => minimaxSrc extOps ttGame d (ttGame.result s a)) (ttGame.actions s)
        (fun a _ => ih (ttGame.result s a) (ttInv_result a h))
      rw [hys]
      cases ys with
      | nil =>
        rw [ttGame_actions] at hlen
        exact absurd (List.length_eq_zero.mp hlen.symm) hne
      | cons v vs => rfl

theorem xWins_sound : ∀ (d : Nat) (s : TicTacToeState), ttInv s → xWins d s = true →
    minimaxSrc extOps ttGame d s = some EFloat.posInf := by
  intro d
  induction d with
  | zero =>
    intro s _ hx
    rw [xWins_zero] at hx
    have hw : s.winner = some Player.Max := beq_iff_eq.mp hx
    rw [minimaxSrc_zero]
    show some (ttHeuristic s) = _
    rw [ttHeuristic, hw]
  | succ d ih =>
    intro s hinv hx
    rw [xWins_succ] at hx
    rw [minimaxSrc_succ]
    by_cases ht : ttGame.is_terminal s
    · rw [if_pos ht] at hx ⊢
      have hw : s.winner = some Player.Max := beq_iff_eq.mp hx
      show some (ttHeuristic s) = _
      rw [ttHeuristic, hw]
    · rw [if_neg ht] at hx ⊢
      obtain ⟨hw, hd⟩ := ttNonterminal ht
      obtain ⟨y, hy, x, hx', he⟩ := hinv.2.2 hw hd
      have hne := ttActions_ne_nil y x hy hx' he
      obtain ⟨ys, hys, hlen⟩ := mapOpt_eq_some_of
        (fun a => minimaxSrc extOps ttGame d (ttGame.result s a)) (ttGame.actions s)
        (fun a _ => ttTotal d (ttGame.result s a) (ttInv_result a hinv))
      rw [hys]
      cases hp : s.player with
      | Max =>
        rw [hp] at hx
        obtain ⟨a, ha, hxa⟩ := List.any_eq_true.mp hx
        have hval : minimaxSrc extOps ttGame d (ttGame.result s a) = some EFloat.posInf :=
          ih (ttGame.result s a) (ttInv_result a hinv) hxa
        have hmem : EFloat.posInf ∈ ys :=
          mapOpt_mem _ _ ys hys a (by rw [ttGame_actions]; exact ha) _ hval
        cases ys with
        | nil => cases hmem
        | cons v vs =>
          show some (vs.foldl
            (match ttGame.current_player s with
             | .Max => extOps.vmax
             | .Min => extOps.vmin) v) = _
          rw [ttGame_player, hp]
          show some (vs.foldl max v) = _
          rw [foldl_max_top vs v hmem]
      | Min =>
        rw [hp] at hx
        have hall := List.all_eq_true.mp hx
        have hy' : ∀ v ∈ ys, v = EFloat.posInf := by
          intro v hv
          obtain ⟨a, ha, hfa⟩ := mapOpt_mem_rev _ _ ys hys v hv
          have hval : minimaxSrc extOps ttGame d (ttGame.result s a) = some EFloat.posInf :=
            ih (ttGame.result s a) (ttInv_result a hinv)
              (hall a (by rw [← ttGame_actions]; exact ha))
          exact Option.some.inj (hfa.symm.trans hval)
        cases ys with
        | nil =>
          rw [ttGame_actions] at hlen
          exact absurd (List.length_eq_zero.mp hlen.symm) hne
        | cons v vs =>
          show some (vs.foldl
            (match ttGame.current_player s with
             | .Max => extOps.vmax
             | .Min => extOps.vmin) v) = _
          rw [ttGame_player, hp]
          show some (vs.foldl min v) = _
          rw [hy' v (List.mem_cons_self v vs),
            foldl_min_all vs _ fun z hz => hy' z (List.mem_cons_of_mem v hz)]

theorem srcCmp_eq_of_keys {mi mj : Move}
    (hi : minimaxSrc extOps ttGame 8 (ttGame.result cornerState mi) = some EFloat.posInf)
    (hj : minimaxSrc extOps ttGame 8 (ttGame.result cornerState mj) = some EFloat.posInf) :
    srcCmp extOps ttGame 8 cornerState mi mj = some Ordering.eq := by
  rw [srcCmp, hi, hj]
  rfl

theorem ttKey01 : minimaxSrc extOps ttGame 8 (ttGame.result cornerState ⟨0, 1, .Cross⟩)
    = some EFloat.posInf := xWins_sound 8 _ (by decide) (by decide)

theorem ttKey02 : minimaxSrc extOps ttGame 8 (ttGame.result cornerState ⟨0, 2, .Cross⟩)
    = some EFloat.posInf := xWins_sound 8 _ (by decide) (by decide)

theorem ttKey10 : minimaxSrc extOps ttGame 8 (ttGame.result cornerState ⟨1, 0, .Cross⟩)
    = some EFloat.posInf := xWins_sound 8 _ (by decide) (by decide)

theorem ttKey11 : minimaxSrc extOps ttGame 8 (ttGame.result cornerState ⟨1, 1, .Cross⟩)
    = some EFloat.posInf := xWins_sound 8 _ (by decide) (by decide)

theorem ttKey12 : minimaxSrc extOps ttGame 8 (ttGame.result cornerState ⟨1, 2, .Cross⟩)
    = some EFloat.posInf := xWins_sound 8 _ (by decide) (by decide)

theorem ttKey20 : minimaxSrc extOps ttGame 8 (ttGame.result cornerState ⟨2, 0, .Cross⟩)
    = some EFloat.posInf := xWins_sound 8 _ (by decide) (by decide)

theorem ttKey21 : minimaxSrc extOps ttGame 8 (ttGame.result cornerState ⟨2, 1, .Cross⟩)
    = some EFloat.posInf := xWins_sound 8 _ (by decide) (by decide)

theorem ttKey22 : minimaxSrc extOps ttGame 8 (ttGame.result cornerState ⟨2, 2, .Cross⟩)
    = some EFloat.posInf := xWins_sound 8 _ (by decide) (by decide)


theorem maxByOpt_step {A : Type} (cmp : A → A → Option Ordering) (a y : A) (l : List A)
    (h : cmp a y = some Ordering.eq) : maxByOpt cmp a (y :: l) = maxByOpt cmp y l := by
  rw [maxByOpt, h]
  rfl

/-- C7: on the 3×3 board that is empty except for one cross in the `a1`
corner (crosses to move, as in the repository's `ensure_draw` test),
`best_move` of `src/minimax.rs` searched to full depth (8 plies = the
number of empty cells) does NOT select the center cell `b2 = (1,1)`:
every reply is a forced win for the crosses, all keys tie at `+∞`, and
`max_by` resolves ties to the last action in `actions()` order, the
opposite corner `c3 = (2,2)`.  This contradicts the center-preference
scenario of the spec and the `ensure_draw` test's own assertion. -/
theorem tictactoe_corner_full_depth_best_move :
    bestMoveSrc extOps ttGame 8 cornerState = some ⟨2, 2, Tile.Cross⟩ ∧
      (⟨2, 2, Tile.Cross⟩ : Move) ≠ ⟨1, 1, Tile.Cross⟩ := by
  refine ⟨?_, by decide⟩
  have h12 := srcCmp_eq_of_keys ttKey01 ttKey02
  have h23 := srcCmp_eq_of_keys ttKey02 ttKey10
  have h34 := srcCmp_eq_of_keys ttKey10 ttKey11
  have h45 := srcCmp_eq_of_keys ttKey11 ttKey12
  have h56 := srcCmp_eq_of_keys ttKey12 ttKey20
  have h67 := srcCmp_eq_of_keys ttKey20 ttKey21
  have h78 := srcCmp_eq_of_keys ttKey21 ttKey22
  show maxByOpt (srcCmp extOps ttGame 8 cornerState) ⟨0, 1, .Cross⟩
    [⟨0, 2, .Cross⟩, ⟨1, 0, .Cross⟩, ⟨1, 1, .Cross⟩, ⟨1, 2, .Cross⟩,
      ⟨2, 0, .Cross⟩, ⟨2, 1, .Cross⟩, ⟨2, 2, .Cross⟩] = some ⟨2, 2, Tile.Cross⟩
  rw [maxByOpt_step _ _ _ _ h12, maxByOpt_step _ _ _ _ h23, maxByOpt_step _ _ _ _ h34,
    maxByOpt_step _ _ _ _ h45, maxByOpt_step _ _ _ _ h56, maxByOpt_step _ _ _ _ h67,
    maxByOpt_step _ _ _ _ h78]
  rfl

theorem ordering_swap_eq_gt {o : Ordering} : o.swap = .gt ↔ o = .lt := by
  cases o <;> simp [Ordering.swap]

theorem cmpMax_gt_iff {u v : EFloat} :
    (playerCmp extOps .Max u v).getD .eq = .gt ↔ v < u := by
  show (some (compare u v)).getD .eq = .gt ↔ v < u
  rw [Option.getD_some]
  exact compare_gt_iff_gt

theorem cmpMin_gt_iff {u v : EFloat} :
    (playerCmp extOps .Min u v).getD .eq = .gt ↔ u < v := by
  show ((some (compare u v)).map Ordering.swap).getD .eq = .gt ↔ u < v
  rw [Option.map_some', Option.getD_some, ordering_swap_eq_gt]
  exact compare_lt_iff_lt

theorem maxBy_mem {A : Type} (cmp : A → A → Ordering) (l : List A) (a : A)
    (h : maxBy cmp l = some a) : a ∈ l := by
  cases l with
  | nil => cases h
  | cons x l =>
    rw [maxBy] at h
    injection h with h
    rcases foldl_maxBy_mem cmp l x with h2 | h2
    · rw [← h, h2]
      exact List.mem_cons_self x l
    · rw [← h]
      exact List.mem_cons_of_mem x h2

theorem maxBy_rel {A : Type} (cmp : A → A → Ordering) (R : A → A → Prop)
    (hgt : ∀ x y, cmp x y = .gt → R x y)
    (hngt : ∀ x y, ¬cmp x y = .gt → R y x)
    (htrans : ∀ x y z, R x y → R y z → R x z)
    (l : List A) (a : A) (h : maxBy cmp l = some a) : ∀ b ∈ l, R a b := by
  cases l with
  | nil => cases h
  | cons x l =>
    rw [maxBy] at h
    injection h with h
    intro b hb
    rw [← h]
    refine foldl_maxBy_rel cmp R hgt hngt htrans l x b ?_
    rcases List.mem_cons.mp hb with h3 | h3
    · exact Or.inl h3
    · exact Or.inr h3

theorem maxBy_last {A : Type} (cmp : A → A → Ordering) (l : List A) (a : A)
    (h : maxBy cmp l = some a) :
    ∃ l1 l2, l = l1 ++ a :: l2 ∧ ∀ b ∈ l2, cmp a b = .gt := by
  cases l with
  | nil => cases h
  | cons x l =>
    rw [maxBy] at h
    injection h with h
    obtain ⟨l1, l2, heq, hl⟩ := foldl_maxBy_last cmp l x
    rw [h] at heq hl
    exact ⟨l1, l2, heq, hl⟩

/-- C1: `best_move(p, d)` keys each candidate action by
`key(a) = minimax(result(a), d)` — the score taken directly from the
engine call, with no second sign flip — and selects under the player
rule: when `current_player(p)` is `Max` the returned action's key is
numerically largest among all actions, when `Min` it is numerically
smallest. -/
theorem best_move_selects_by_engine_key {S A : Type} (g : Game S A EFloat) (d : Nat)
    (s : S) (a : A) (h : bestMove extOps g d s = some a) :
    a ∈ g.actions s ∧
      (g.current_player s = Player.Max →
        ∀ b ∈ g.actions s,
          minimax extOps g d (g.result s b) ≤ minimax extOps g d (g.result s a)) ∧
      (g.current_player s = Player.Min →
        ∀ b ∈ g.actions s,
          minimax extOps g d (g.result s a) ≤ minimax extOps g d (g.result s b)) := by
  rw [bestMove] at h
  refine ⟨maxBy_mem _ _ _ h, ?_, ?_⟩
  · intro hp
    exact maxBy_rel _
      (fun u v => minimax extOps g d (g.result s v) ≤ minimax extOps g d (g.result s u))
      (fun u v huv => by
        have huv' : (playerCmp extOps (g.current_player s)
            (minimax extOps g d (g.result s u))
            (minimax extOps g d (g.result s v))).getD Ordering.eq = Ordering.gt := huv
        rw [hp] at huv'
        exact (cmpMax_gt_iff.mp huv').le)
      (fun u v huv => by
        have huv' : ¬(playerCmp extOps (g.current_player s)
            (minimax extOps g d (g.result s u))
            (minimax extOps g d (g.result s v))).getD Ordering.eq = Ordering.gt := huv
        rw [hp] at huv'
        exact le_of_not_lt fun hlt => huv' (cmpMax_gt_iff.mpr hlt))
      (fun u v w h1 h2 => le_trans h2 h1) _ a h
  · intro hp
    exact maxBy_rel _
      (fun u v => minimax extOps g d (g.result s u) ≤ minimax extOps g d (g.result s v))
      (fun u v huv => by
        have huv' : (playerCmp extOps (g.current_player s)
            (minimax extOps g d (g.result s u))
            (minimax extOps g d (g.result s v))).getD Ordering.eq = Ordering.gt := huv
        rw [hp] at huv'
        exact (cmpMin_gt_iff.mp huv').le)
      (fun u v huv => by
        have huv' : ¬(playerCmp extOps (g.current_player s)
            (minimax extOps g d (g.result s u))
            (minimax extOps g d (g.result s v))).getD Ordering.eq = Ordering.gt := huv
        rw [hp] at huv'
        exact le_of_not_lt fun hlt => huv' (cmpMin_gt_iff.mpr hlt))
      (fun u v w h1 h2 => le_trans h1 h2) _ a h

/-- Witness for C1 at a concrete game: the driver picks action `2`, an
action of the root whose key dominates the other action's key. -/
theorem best_move_selects_by_engine_key_witness :
    (2 : Nat) ∈ twoMoveGame.actions 0 ∧
      minimax extOps twoMoveGame 1 (twoMoveGame.result 0 1) ≤
        minimax extOps twoMoveGame 1 (twoMoveGame.result 0 2) := by
  have h := best_move_selects_by_engine_key twoMoveGame 1 0 2 (by decide)
  exact ⟨h.1, h.2.1 rfl 1 (by decide)⟩

/-- Counterexample to C5: a position whose two actions (`1` first, `2`
second, in `actions()` order) carry equal keys; `best_move` returns the
SECOND action, not the first-encountered one. -/
theorem best_move_tie_returns_second :
    tieGame.actions 0 = [1, 2] ∧
      minimax extOps tieGame 1 (tieGame.result 0 1) =
        minimax extOps tieGame 1 (tieGame.result 0 2) ∧
      bestMove extOps tieGame 1 0 = some 2 := by decide

/-- C5 as amended: when keys tie under the comparison rule, `best_move`
returns the LAST-encountered such action in `actions()` iteration order:
the returned action splits the action list so that every action after it
compares strictly worse (so no later action ties with it). -/
theorem best_move_tie_breaks_last {S A : Type} (g : Game S A EFloat) (d : Nat)
    (s : S) (a : A) (h : bestMove extOps g d s = some a) :
    ∃ l1 l2, g.actions s = l1 ++ a :: l2 ∧
      (g.current_player s = Player.Max →
        ∀ b ∈ l2, minimax extOps g d (g.result s b) < minimax extOps g d (g.result s a)) ∧
      (g.current_player s = Player.Min →
        ∀ b ∈ l2, minimax extOps g d (g.result s a) < minimax extOps g d (g.result s b)) := by
  rw [bestMove] at h
  obtain ⟨l1, l2, heq, hl⟩ := maxBy_last _ _ _ h
  refine ⟨l1, l2, heq, ?_, ?_⟩
  · intro hp b hb
    have h2 : (playerCmp extOps (g.current_player s)
        (minimax extOps g d (g.result s a))
        (minimax extOps g d (g.result s b))).getD Ordering.eq = Ordering.gt := hl b hb
    rw [hp] at h2
    exact cmpMax_gt_iff.mp h2
  · intro hp b hb
    have h2 : (playerCmp extOps (g.current_player s)
        (minimax extOps g d (g.result s a))
        (minimax extOps g d (g.result s b))).getD Ordering.eq = Ordering.gt := hl b hb
    rw [hp] at h2
    exact cmpMin_gt_iff.mp h2

/-- Witness for the amended C5 at a concrete game: the action returned
on the tie is the final list position (nothing follows it). -/
theorem best_move_tie_breaks_last_witness :
    ∃ l1 l2, tieGame.actions 0 = l1 ++ 2 :: l2 ∧
      (tieGame.current_player 0 = Player.Max →
        ∀ b ∈ l2, minimax extOps tieGame 1 (tieGame.result 0 b) <
          minimax extOps tieGame 1 (tieGame.result 0 2)) ∧
      (tieGame.current_player 0 = Player.Min →
        ∀ b ∈ l2, minimax extOps tieGame 1 (tieGame.result 0 2) <
          minimax extOps tieGame 1 (tieGame.result 0 b)) :=
  best_move_tie_breaks_last tieGame 1 0 2 (by decide)

/-- C6: `best_move` fails (returns `none`, the model of the
`"No moves available"` panic) exactly when `actions()` is empty; with a
non-empty action list the failure branch is unreachable and the returned
action is one of the actions.  Holds for any value type and operations. -/
theorem best_move_none_iff_no_actions {S A V : Type} (ops : FloatOps V) (g : Game S A V)
    (d : Nat) (s : S) :
    (bestMove ops g d s = none ↔ g.actions s = []) ∧
      ∀ a, bestMove ops g d s = some a → a ∈ g.actions s := by
  refine ⟨⟨?_, ?_⟩, ?_⟩
  · intro h
    cases hacts : g.actions s with
    | nil => rfl
    | cons x l =>
      rw [bestMove, hacts, maxBy] at h
      cases h
  · intro h
    rw [bestMove, h]
    rfl
  · intro a h
    rw [bestMove] at h
    exact maxBy_mem _ _ _ h

/-- Witness for C6: the contract-violating game panics, and a game with
actions returns one of them. -/
theorem best_move_none_iff_no_actions_witness :
    bestMove extOps emptyGame 1 0 = none ∧ (2 : Nat) ∈ twoMoveGame.actions 0 :=
  ⟨(best_move_none_iff_no_actions extOps emptyGame 1 0).1.mpr rfl,
    (best_move_none_iff_no_actions extOps twoMoveGame 1 0).2 2 (by decide)⟩

/-- C2: pruning correctness — for every game, position and depth, the
value of the pruning engine called with the full window
(`alpha = -∞`, `beta = +∞`, which is what `minimax` does) equals the
value of the unpruned full-width negamax search of the same tree to the
same depth with the same base-case sign convention. -/
theorem pruning_never_changes_value {S A : Type} (g : Game S A EFloat) (d : Nat) (s : S) :
    minimax extOps g d s = negamaxSpec g d s ∧
      alphaBeta extOps g d s extOps.neg_infinity extOps.infinity = negamaxSpec g d s := by
  have h := alphaBeta_clm g d s .negInf .posInf efloat_negInf_lt_posInf
  rw [clm_negInf_posInf, clm_negInf_posInf] at h
  exact ⟨h, h⟩

/-- C3: at a terminal position, or at depth `0`, `alpha_beta` (for any
bounds) and `minimax` return `evaluation(p)` multiplied by `+1` when the
current player is `Max` and by `-1` when it is `Min` — independent of
the depth, with no recursion. -/
theorem terminal_leaf_resigned {S A : Type} (g : Game S A EFloat) (d : Nat) (s : S)
    (alpha beta : EFloat) (h : g.is_terminal s = true ∨ d = 0) :
    alphaBeta extOps g d s alpha beta =
      EFloat.mul (g.evaluation s)
        (if g.current_player s = Player.Max then EFloat.fin 1 else EFloat.neg (EFloat.fin 1)) ∧
      minimax extOps g d s =
        EFloat.mul (g.evaluation s)
          (if g.current_player s = Player.Max then EFloat.fin 1 else EFloat.neg (EFloat.fin 1)) := by
  cases d with
  | zero => exact ⟨rfl, rfl⟩
  | succ d =>
    rcases h with ht | hd
    · constructor
      · rw [alphaBeta_succ, if_pos ht]
        rfl
      · rw [minimax, alphaBeta_succ, if_pos ht]
        rfl
    · cases hd

/-- Witness for C3: a terminal one-state game with the minimiser to move
and evaluation `3`: the engine returns `3 * (-1) = -3` at positive depth
and arbitrary bounds. -/
theorem terminal_leaf_resigned_witness :
    alphaBeta extOps minLeafGame 5 0 (.fin 7) (.fin 9) =
      EFloat.mul (minLeafGame.evaluation 0)
        (if minLeafGame.current_player 0 = Player.Max then EFloat.fin 1
         else EFloat.neg (EFloat.fin 1)) ∧
      alphaBeta extOps minLeafGame 5 0 (.fin 7) (.fin 9) = EFloat.fin (-3) :=
  ⟨(terminal_leaf_resigned minLeafGame 5 0 (.fin 7) (.fin 9) (Or.inl (by decide))).1,
    by decide⟩

/-- Counterexample to C4: at a concrete non-terminal position with no
actions and depth `1 > 0`, the djinn-minimax engine does not fail — it
silently returns `-∞`, the fold's initial `best_value`. -/
theorem alpha_beta_empty_actions_returns_value :
    emptyGame.is_terminal 0 = false ∧ emptyGame.actions 0 = [] ∧
      alphaBeta extOps emptyGame 1 0 .negInf .posInf = .negInf ∧
      minimax extOps emptyGame 1 0 = .negInf := by decide

/-- C4 as amended: on a non-terminal position with an empty action list,
evaluated at depth `d + 1 > 0`, the older unpruned engine of
`src/minimax.rs` fails fast (its `.expect` panics, modelled by `none`),
but the `alpha_beta` engine of `djinn-minimax` returns `neg_infinity`
(the initial fold value) for any bounds instead of failing. -/
theorem empty_actions_engine_behaviour {S A V : Type} (ops : FloatOps V) (g : Game S A V)
    (d : Nat) (s : S) (alpha beta : V) (ht : g.is_terminal s = false)
    (ha : g.actions s = []) :
    alphaBeta ops g (d + 1) s alpha beta = ops.neg_infinity ∧
      minimaxSrc ops g (d + 1) s = none := by
  constructor
  · rw [alphaBeta_succ, ht, ha]
    rfl
  · rw [minimaxSrc_succ, ht, ha]
    rfl

/-- Witness for the amended C4 at the concrete contract-violating game. -/
theorem empty_actions_engine_behaviour_witness :
    alphaBeta extOps emptyGame 3 0 (.fin 0) (.fin 5) = extOps.neg_infinity ∧
      minimaxSrc extOps emptyGame 3 0 = none :=
  empty_actions_engine_behaviour extOps emptyGame 2 0 (.fin 0) (.fin 5) rfl rfl

/-- C8: for every foreign runtime state and action, the adapter's
`result` returns a wrapper around the NEW handle produced by the foreign
runtime's own `result` call — a fresh object, not a mutation: every
pre-existing object (the original position's object included) is
unchanged, so the wrapped position value is unchanged by the operation. -/
theorem adapter_result_fresh_and_frame (rt : PyRt) (heap : List String) (s : PyState)
    (action : String) :
    (pyStateResult rt heap s action).1.handle = (pyCallResult rt heap s.handle action).1 ∧
      heap.length ≤ (pyStateResult rt heap s action).1.handle ∧
      (∀ i, i < heap.length →
        (pyStateResult rt heap s action).2.getD i "" = heap.getD i "") ∧
      (s.handle < heap.length →
        (pyStateResult rt heap s action).2.getD s.handle "" = heap.getD s.handle "" ∧
          (pyStateResult rt heap s action).1.handle ≠ s.handle) := by
  refine ⟨rfl, le_refl _, ?_, ?_⟩
  · intro i hi
    exact List.getD_append heap _ "" i hi
  · intro hs
    exact ⟨List.getD_append heap _ "" s.handle hs, fun hcontra => absurd (hcontra ▸ hs) (lt_irrefl _)⟩

/-- Witness for C8 at a concrete runtime with two live objects. -/
theorem adapter_result_fresh_and_frame_witness :
    (pyStateResult ⟨fun d a => d ++ a⟩ ["s0", "s1"] ⟨1⟩ "m").1.handle =
        (pyCallResult ⟨fun d a => d ++ a⟩ ["s0", "s1"] 1 "m").1 ∧
      (pyStateResult ⟨fun d a => d ++ a⟩ ["s0", "s1"] ⟨1⟩ "m").2.getD 1 "" =
        (["s0", "s1"] : List String).getD 1 "" ∧
      (pyStateResult ⟨fun d a => d ++ a⟩ ["s0", "s1"] ⟨1⟩ "m").1.handle ≠ 1 := by
  have h := adapter_result_fresh_and_frame ⟨fun d a => d ++ a⟩ ["s0", "s1"] ⟨1⟩ "m"
  have h4 := h.2.2.2 (by decide)
  exact ⟨h.1, h4.1, h4.2⟩

/-- C9: `load_plugin` succeeds exactly by reading the source, loading it
as a module named by the file stem, looking up precisely the
Pascal-cased stem as the entry-point class, and calling it with zero
arguments; the casing convention sends `"hex"` to `"Hex"`. -/
theorem load_plugin_derives_pascal_class (env : LoaderEnv) (path : PathParts)
    (full : String) :
    (∀ p, load_plugin env path full = some p ↔
      ∃ code m c, env.read_to_string full = some code ∧
        env.from_code code path.file_name path.stem = some m ∧
        m.attr (toPascalCase path.stem) = some c ∧ c.call [] = some p.obj) ∧
      toPascalCase "hex" = "Hex" := by
  constructor
  · intro p
    constructor
    · intro h
      rw [load_plugin] at h
      rcases hread : env.read_to_string full with _ | code
      · rw [hread] at h
        cases h
      · rw [hread] at h
        have h1 : (match env.from_code code path.file_name path.stem with
          | none => none
          | some m =>
            match m.attr (toPascalCase path.stem) with
            | none => none
            | some c => (c.call []).map Plugin.mk) = some p := h
        rcases hcomp : env.from_code code path.file_name path.stem with _ | m
        · rw [hcomp] at h1
          cases h1
        · rw [hcomp] at h1
          have h2 : (match m.attr (toPascalCase path.stem) with
            | none => none
            | some c => (c.call []).map Plugin.mk) = some p := h1
          rcases hattr : m.attr (toPascalCase path.stem) with _ | c
          · rw [hattr] at h2
            cases h2
          · rw [hattr] at h2
            have h3 : (c.call []).map Plugin.mk = some p := h2
            rcases hcall : c.call [] with _ | obj
            · rw [hcall] at h3
              cases h3
            · rw [hcall] at h3
              have h4 : some (Plugin.mk obj) = some p := h3
              injection h4 with h4
              exact ⟨code, m, c, rfl, hcomp, hattr, by rw [hcall, ← h4]⟩
    · rintro ⟨code, m, c, h1, h2, h3, h4⟩
      obtain ⟨obj⟩ := p
      rw [load_plugin, h1]
      show (match env.from_code code path.file_name path.stem with
        | none => none
        | some m =>
          match m.attr (toPascalCase path.stem) with
          | none => none
          | some c => (c.call []).map Plugin.mk) = some (Plugin.mk obj)
      rw [h2]
      show (match m.attr (toPascalCase path.stem) with
        | none => none
        | some c => (c.call []).map Plugin.mk) = some (Plugin.mk obj)
      rw [h3]
      show (c.call []).map Plugin.mk = some (Plugin.mk obj)
      rw [h4]
      rfl
  · rfl

/-- Witness for C9 at a concrete environment: loading `plugins/hex.py`
instantiates exactly class `Hex` with zero arguments. -/
theorem load_plugin_derives_pascal_class_witness :
    load_plugin hexEnv hexPath "plugins/hex.py" = some ⟨⟨7⟩⟩ ∧ toPascalCase "hex" = "Hex" :=
  ⟨((load_plugin_derives_pascal_class hexEnv hexPath "plugins/hex.py").1 ⟨⟨7⟩⟩).mpr
      ⟨"class Hex: pass", ⟨fun attr => if attr = "Hex" then
          some ⟨fun args => if args = [] then some ⟨7⟩ else none⟩ else none⟩,
        ⟨fun args => if args = [] then some ⟨7⟩ else none⟩, rfl, rfl, rfl, rfl⟩,
    (load_plugin_derives_pascal_class hexEnv hexPath "plugins/hex.py").2⟩

/-- C10: when the partial comparison of two keys yields no ordering (as
on a NaN), the driver's comparator treats the pair as equal
(`unwrap_or(Ordering::Equal)`) rather than failing, and `best_move`
never aborts because of an incomparable pair: on any non-empty action
list it returns an action. -/
theorem incomparable_keys_treated_equal :
    (∀ (V : Type) (ops : FloatOps V) (p : Player) (x y : V),
      ops.pcmp x y = none → (playerCmp ops p x y).getD .eq = .eq) ∧
      ∀ (S A V : Type) (ops : FloatOps V) (g : Game S A V) (d : Nat) (s : S),
        g.actions s ≠ [] → (bestMove ops g d s).isSome = true := by
  constructor
  · intro V ops p x y h
    cases p <;> simp [playerCmp, h]
  · intro S A V ops g d s h
    cases hacts : g.actions s with
    | nil => exact absurd hacts h
    | cons x l =>
      rw [bestMove, hacts, maxBy]
      rfl

/-- Witness for C10: a comparison with no ordering collapses to `Equal`,
and a driver run on a non-empty action list returns an action. -/
theorem incomparable_keys_treated_equal_witness :
    (playerCmp noneOps Player.Min () ()).getD .eq = .eq ∧
      (bestMove extOps twoMoveGame 1 0).isSome = true :=
  ⟨incomparable_keys_treated_equal.1 Unit noneOps Player.Min () () rfl,
    incomparable_keys_treated_equal.2 Nat Nat EFloat extOps twoMoveGame 1 0 (by decide)⟩
